import Mathlib

/-!
# Verification of `destroyable-server` (httptoolkit/destroyable-server)

A shallow embedding of `src/index.ts` (the current implementation) and of the
historical single-handle-per-key variant, together with proofs of the spec's
testable properties.

Modelling conventions:
* A connection handle is identified by a `Nat` (JS object identity).
* A registry key is a `String` (`remoteAddress + ":" + remotePort`).
* The JS object `connectionDict : { [key: string]: Array<Socket> }` is an
  insertion-ordered association list `List (String × List Nat)`; `for key in`
  iterates in insertion order for non-numeric string keys, which the list
  order models.
* `Array.prototype.indexOf` (which returns `-1` when absent) is modelled by
  an `Option Nat`-valued first-index function.
-/

set_option autoImplicit false

namespace DestroyableServer

/-- The connection registry: `connectionDict` of `makeDestroyable` in
`src/index.ts`, keyed by `remoteAddress + ":" + remotePort`, each key holding
the ordered list of currently-open handles for that key. -/
abbrev Registry := List (String × List Nat)

/-- Lookup `connectionDict[key]`: the first (and, with unique keys, only) entry for
`key`, or `none` when the key is absent. -/
def getConns : Registry → String → Option (List Nat)
  | [], _ => none
  | (k, conns) :: rest, key => if k = key then some conns else getConns rest key

/-- The TS `conns.indexOf(conn)`: index of the first occurrence, `none` for `-1`. -/
def connIndexOf : List Nat → Nat → Option Nat
  | [], _ => none
  | c :: rest, conn =>
    if c = conn then some 0 else (connIndexOf rest conn).map (· + 1)

/-- Function `addConnection(key, conn)` from `src/index.ts`: push onto the existing
array for `key`, or create a fresh singleton array. -/
def addConnection : Registry → String → Nat → Registry
  | [], key, conn => [(key, [conn])]
  | (k, conns) :: rest, key, conn =>
    if k = key then (k, conns ++ [conn]) :: rest
    else (k, conns) :: addConnection rest key conn

/-- Function `removeConnection(key, conn)` from `src/index.ts`:
if the key is absent, no-op; else look up `indexOf(conn)`;
if the array is `[conn]` delete the key, else if found splice it out. -/
def removeConnection : Registry → String → Nat → Registry
  | [], _, _ => []
  | (k, conns) :: rest, key, conn =>
    if k = key then
      match connIndexOf conns conn with
      | none => (k, conns) :: rest
      | some i =>
        if conns.length = 1 ∧ i = 0 then rest
        else (k, conns.eraseIdx i) :: rest
    else (k, conns) :: removeConnection rest key conn

/-- The order in which `destroy()` issues `conn.destroy()`: keys in
insertion order, and within each key the handles in reverse registration
order (the `for (let i = connections.length - 1; i >= 0; i--)` loop). -/
def destroyOrder : Registry → List Nat
  | [] => []
  | (_, conns) :: rest => conns.reverse ++ destroyOrder rest

/-- Every handle stored in the registry appears in the destroy order. -/
theorem mem_destroyOrder_of_getConns (d : Registry) (k : String) (cs : List Nat)
    (c : Nat) (hk : getConns d k = some cs) (hc : c ∈ cs) :
    c ∈ destroyOrder d := by
  induction d with
  | nil => simp [getConns] at hk
  | cons p rest ih =>
    obtain ⟨k₀, cs₀⟩ := p
    by_cases h : k₀ = k
    · simp only [getConns, h, if_pos rfl] at hk
      cases hk
      simp [destroyOrder, List.mem_append, List.mem_reverse, hc]
    · simp only [getConns, if_neg h] at hk
      simp [destroyOrder, List.mem_append, ih hk]

/-- Function `connIndexOf` returns `none` exactly on absent elements. -/
theorem connIndexOf_eq_none_iff (l : List Nat) (c : Nat) :
    connIndexOf l c = none ↔ c ∉ l := by
  induction l with
  | nil => simp [connIndexOf]
  | cons a rest ih =>
    by_cases h : a = c
    · simp [connIndexOf, h]
    · have hmap : Option.map (· + 1) (connIndexOf rest c) = none
          ↔ connIndexOf rest c = none := by
        cases connIndexOf rest c <;> simp
      simp only [connIndexOf, if_neg h, hmap, ih, List.mem_cons, not_or]
      exact ⟨fun hm => ⟨fun he => h he.symm, hm⟩, fun hm => hm.2⟩

/-- C5: removing a pair that is not present leaves the registry unchanged
(the embedding is a total function, so "does not throw" holds by
construction; the content is that the registry is returned unmodified).
This covers both the absent-key case and the present-key/absent-handle
case. -/
theorem removeConnection_not_present (d : Registry) (k : String) (c : Nat)
    (h : ∀ cs, getConns d k = some cs → c ∉ cs) :
    removeConnection d k c = d := by
  induction d with
  | nil => rfl
  | cons p rest ih =>
    obtain ⟨k₀, cs₀⟩ := p
    by_cases hk : k₀ = k
    · have hc : c ∉ cs₀ := h cs₀ (by simp [getConns, hk])
      have hidx : connIndexOf cs₀ c = none := (connIndexOf_eq_none_iff cs₀ c).mpr hc
      simp [removeConnection, hk, hidx]
    · have hrest : removeConnection rest k c = rest := by
        refine ih fun cs hcs => h cs ?_
        simp [getConns, hk, hcs]
      simp [removeConnection, hk, hrest]

/-- Closed witness for `removeConnection_not_present`: key present, handle
absent. -/
theorem removeConnection_not_present_witness :
    removeConnection [("1.2.3.4:1234", [7])] "1.2.3.4:1234" 8
      = [("1.2.3.4:1234", [7])] :=
  removeConnection_not_present _ _ _ (by decide)

/-- Effect of `addConnection` on lookup: the target key's array gets the
handle appended (created as a singleton when absent); other keys are
untouched. -/
theorem getConns_addConnection (d : Registry) (k k' : String) (c : Nat) :
    getConns (addConnection d k c) k'
      = if k' = k then some ((getConns d k).getD [] ++ [c]) else getConns d k' := by
  induction d with
  | nil =>
    by_cases h : k = k'
    · subst h
      simp [addConnection, getConns]
    · have h' : ¬ k' = k := fun he => h he.symm
      simp [addConnection, getConns, h, h']
  | cons p rest ih =>
    obtain ⟨k₀, cs₀⟩ := p
    by_cases h0 : k₀ = k
    · subst h0
      by_cases h1 : k' = k₀
      · subst h1
        simp [addConnection, getConns]
      · have h1' : ¬ k₀ = k' := fun he => h1 he.symm
        simp [addConnection, getConns, h1, h1']
    · have hstep : addConnection ((k₀, cs₀) :: rest) k c
          = (k₀, cs₀) :: addConnection rest k c := by
        simp [addConnection, h0]
      rw [hstep]
      by_cases h1 : k₀ = k'
      · subst h1
        simp [getConns, h0]
      · simp [getConns, h0, h1, ih]

/-- C8: two handles accepted under the same key (`duplicate connections`
test in the repo) are both tracked, as two distinct entries appended to the
key's array, and both appear in the order of handles that `destroy()`
force-terminates. -/
theorem duplicate_key_both_tracked (d : Registry) (k : String) (c1 c2 : Nat) :
    getConns (addConnection (addConnection d k c1) k c2) k
      = some ((getConns d k).getD [] ++ [c1, c2])
    ∧ c1 ∈ destroyOrder (addConnection (addConnection d k c1) k c2)
    ∧ c2 ∈ destroyOrder (addConnection (addConnection d k c1) k c2) := by
  have h1 : getConns (addConnection d k c1) k = some ((getConns d k).getD [] ++ [c1]) := by
    simp [getConns_addConnection]
  have h2 : getConns (addConnection (addConnection d k c1) k c2) k
      = some ((getConns d k).getD [] ++ [c1, c2]) := by
    rw [getConns_addConnection, if_pos rfl, h1]
    simp
  refine ⟨h2, ?_, ?_⟩
  · exact mem_destroyOrder_of_getConns _ _ _ _ h2 (by simp)
  · exact mem_destroyOrder_of_getConns _ _ _ _ h2 (by simp)

/-- C2: if handle `A` was registered before handle `B` under the same key
and both are still registered when `destroy()` runs, then the destroy order
visits `B` strictly before `A` (reverse registration order within a key). -/
theorem destroy_reverse_order (d : Registry) (k : String) (A B : Nat)
    (l1 l2 l3 : List Nat)
    (h : (k, l1 ++ A :: (l2 ++ B :: l3)) ∈ d) :
    ∃ xs ys, destroyOrder d = xs ++ B :: ys ∧ A ∈ ys := by
  induction d with
  | nil => simp at h
  | cons p rest ih =>
    rcases List.mem_cons.mp h with heq | hmem
    · subst heq
      refine ⟨l3.reverse, l2.reverse ++ A :: (l1.reverse ++ destroyOrder rest), ?_, ?_⟩
      · simp [destroyOrder, List.reverse_append]
      · simp
    · obtain ⟨xs, ys, hsplit, hA⟩ := ih hmem
      exact ⟨p.2.reverse ++ xs, ys, by
        obtain ⟨k₀, cs₀⟩ := p
        simp [destroyOrder, hsplit], hA⟩

/-- Closed witness for `destroy_reverse_order`: handles 10 then 20 under one
key; 20 is destroyed first, 10 after it. -/
theorem destroy_reverse_order_witness :
    ∃ xs ys, destroyOrder [("1.2.3.4:1234", [10, 20])] = xs ++ 20 :: ys ∧ 10 ∈ ys :=
  destroy_reverse_order [("1.2.3.4:1234", [10, 20])] "1.2.3.4:1234" 10 20 [] [] []
    (by simp)

/-! ## Event traces

The `connection`/`secureConnection` handler registers the handle under its
key; the `close` handler (a closure capturing the same key and handle)
unregisters it. A trace of these host events drives the registry. -/

/-- One host event observed by `makeDestroyable`'s handlers: a
connection-accepted event (`connection` or `secureConnection`, both tracked
identically) or that connection's `close` event. -/
inductive Event where
  | accept (key : String) (conn : Nat)
  | close (key : String) (conn : Nat)
deriving DecidableEq

/-- Registry mutation performed by the handler for one event. -/
def applyEvent (d : Registry) : Event → Registry
  | .accept k c => addConnection d k c
  | .close k c => removeConnection d k c

/-- Process a trace of events in order. -/
def runEvents (d : Registry) (tr : List Event) : Registry :=
  tr.foldl applyEvent d

/-- Number of accepted events for the pair `(k, c)` in a trace. -/
def acceptCount : List Event → String → Nat → Nat
  | [], _, _ => 0
  | Event.accept k' c' :: rest, k, c =>
    (if k' = k ∧ c' = c then 1 else 0) + acceptCount rest k c
  | Event.close _ _ :: rest, k, c => acceptCount rest k c

/-- Number of close events for the pair `(k, c)` in a trace. -/
def closeCount : List Event → String → Nat → Nat
  | [], _, _ => 0
  | Event.close k' c' :: rest, k, c =>
    (if k' = k ∧ c' = c then 1 else 0) + closeCount rest k c
  | Event.accept _ _ :: rest, k, c => closeCount rest k c

/-- Multiplicity of handle `c` under key `k` in the registry. -/
def regCount (d : Registry) (k : String) (c : Nat) : Nat :=
  ((getConns d k).getD []).count c

/-- No key maps to an empty array (the spec's "no dangling empty entries"). -/
def noEmpty (d : Registry) : Prop := ∀ p ∈ d, p.2 ≠ []

/-- Keys occur at most once (JS object property names are unique). -/
def keysNodup (d : Registry) : Prop := (d.map Prod.fst).Nodup

theorem acceptCount_append (l1 l2 : List Event) (k : String) (c : Nat) :
    acceptCount (l1 ++ l2) k c = acceptCount l1 k c + acceptCount l2 k c := by
  induction l1 with
  | nil => simp [acceptCount]
  | cons e rest ih =>
    cases e <;> simp [acceptCount, ih] <;> omega

theorem closeCount_append (l1 l2 : List Event) (k : String) (c : Nat) :
    closeCount (l1 ++ l2) k c = closeCount l1 k c + closeCount l2 k c := by
  induction l1 with
  | nil => simp [closeCount]
  | cons e rest ih =>
    cases e <;> simp [closeCount, ih] <;> omega

/-- Specification of `connIndexOf` on a hit: the index is in range, the
element occurs, and splicing at that index is erasing the first
occurrence. -/
theorem connIndexOf_spec (l : List Nat) (c : Nat) (i : Nat)
    (h : connIndexOf l c = some i) :
    i < l.length ∧ c ∈ l ∧ l.eraseIdx i = l.erase c := by
  induction l generalizing i with
  | nil => simp [connIndexOf] at h
  | cons a rest ih =>
    by_cases ha : a = c
    · subst ha
      rw [connIndexOf, if_pos rfl] at h
      cases h
      refine ⟨by simp, by simp, ?_⟩
      simp [List.eraseIdx]
    · rw [connIndexOf, if_neg ha] at h
      cases hrec : connIndexOf rest c with
      | none => rw [hrec] at h; simp at h
      | some j =>
        rw [hrec] at h
        simp only [Option.map_some'] at h
        cases h
        obtain ⟨hlt, hmem, herase⟩ := ih j hrec
        refine ⟨by simpa using Nat.succ_lt_succ hlt, List.mem_cons_of_mem _ hmem, ?_⟩
        rw [List.eraseIdx_cons_succ, herase, List.erase_cons_tail]
        simpa using ha

/-- On a singleton array, a hit at index 0 means the array is exactly the
sought handle. -/
theorem connIndexOf_singleton (l : List Nat) (c : Nat)
    (h : connIndexOf l c = some 0) (hlen : l.length = 1) : l = [c] := by
  match l, hlen with
  | [x], _ =>
    by_cases hx : x = c
    · subst hx; rfl
    · rw [connIndexOf, if_neg hx] at h
      simp [connIndexOf] at h

theorem getConns_eq_none_of_not_mem (d : Registry) (k : String)
    (h : k ∉ d.map Prod.fst) : getConns d k = none := by
  induction d with
  | nil => rfl
  | cons p rest ih =>
    obtain ⟨k₀, cs₀⟩ := p
    simp only [List.map_cons, List.mem_cons, not_or] at h
    rw [getConns, if_neg (fun he => h.1 he.symm)]
    exact ih h.2

/-- Unfolding `addConnection` on a matching head entry. -/
theorem addConnection_cons_hit (k₀ : String) (cs₀ : List Nat) (rest : Registry)
    (c : Nat) :
    addConnection ((k₀, cs₀) :: rest) k₀ c = (k₀, cs₀ ++ [c]) :: rest := by
  simp [addConnection]

/-- Unfolding `addConnection` past a non-matching head entry. -/
theorem addConnection_cons_other (k₀ key : String) (cs₀ : List Nat)
    (rest : Registry) (c : Nat) (h : ¬ k₀ = key) :
    addConnection ((k₀, cs₀) :: rest) key c
      = (k₀, cs₀) :: addConnection rest key c := by
  simp [addConnection, h]

/-- Unfolding `removeConnection` on a matching head whose array misses the
handle. -/
theorem removeConnection_cons_miss (k₀ : String) (cs₀ : List Nat)
    (rest : Registry) (c : Nat) (hidx : connIndexOf cs₀ c = none) :
    removeConnection ((k₀, cs₀) :: rest) k₀ c = (k₀, cs₀) :: rest := by
  simp [removeConnection, hidx]

/-- Unfolding `removeConnection` on the delete-the-key branch. -/
theorem removeConnection_cons_del (k₀ : String) (cs₀ : List Nat)
    (rest : Registry) (c i : Nat) (hidx : connIndexOf cs₀ c = some i)
    (hdel : cs₀.length = 1 ∧ i = 0) :
    removeConnection ((k₀, cs₀) :: rest) k₀ c = rest := by
  simp [removeConnection, hidx, hdel]

/-- Unfolding `removeConnection` on the splice branch. -/
theorem removeConnection_cons_splice (k₀ : String) (cs₀ : List Nat)
    (rest : Registry) (c i : Nat) (hidx : connIndexOf cs₀ c = some i)
    (hdel : ¬ (cs₀.length = 1 ∧ i = 0)) :
    removeConnection ((k₀, cs₀) :: rest) k₀ c
      = (k₀, cs₀.eraseIdx i) :: rest := by
  simp [removeConnection, hidx, hdel]

/-- Unfolding `removeConnection` past a non-matching head entry. -/
theorem removeConnection_cons_other (k₀ key : String) (cs₀ : List Nat)
    (rest : Registry) (c : Nat) (h : ¬ k₀ = key) :
    removeConnection ((k₀, cs₀) :: rest) key c
      = (k₀, cs₀) :: removeConnection rest key c := by
  simp [removeConnection, h]

/-- A present handle always has an index. -/
theorem connIndexOf_mem (l : List Nat) (c : Nat) (h : c ∈ l) :
    ∃ i, connIndexOf l c = some i := by
  cases hidx : connIndexOf l c with
  | none => exact absurd h ((connIndexOf_eq_none_iff l c).mp hidx)
  | some i => exact ⟨i, rfl⟩

/-- Keys after `addConnection`: unchanged when the key already exists,
appended otherwise. -/
theorem keys_addConnection (d : Registry) (k : String) (c : Nat) :
    (addConnection d k c).map Prod.fst
      = if k ∈ d.map Prod.fst then d.map Prod.fst else d.map Prod.fst ++ [k] := by
  induction d with
  | nil => simp [addConnection]
  | cons p rest ih =>
    obtain ⟨k₀, cs₀⟩ := p
    by_cases h0 : k₀ = k
    · subst h0
      simp [addConnection]
    · have h0' : ¬ k = k₀ := fun he => h0 he.symm
      by_cases hm : k ∈ rest.map Prod.fst
      · simp [addConnection, h0, ih, hm, h0']
      · simp [addConnection, h0, ih, hm, h0']

theorem keysNodup_addConnection (d : Registry) (k : String) (c : Nat)
    (h : keysNodup d) : keysNodup (addConnection d k c) := by
  unfold keysNodup at h ⊢
  rw [keys_addConnection]
  by_cases hm : k ∈ d.map Prod.fst
  · simpa [hm] using h
  · simp [hm, List.nodup_append, h]

theorem noEmpty_addConnection (d : Registry) (k : String) (c : Nat)
    (h : noEmpty d) : noEmpty (addConnection d k c) := by
  induction d with
  | nil =>
    intro p hp
    rw [show addConnection [] k c = [(k, [c])] from rfl, List.mem_singleton] at hp
    subst hp
    simp
  | cons q rest ih =>
    obtain ⟨k₀, cs₀⟩ := q
    have htail : noEmpty rest := fun q hq => h q (List.mem_cons_of_mem _ hq)
    by_cases h0 : k₀ = k
    · subst h0
      rw [addConnection_cons_hit]
      intro p hp
      rcases List.mem_cons.mp hp with hp | hp
      · subst hp; simp
      · exact htail p hp
    · rw [addConnection_cons_other _ _ _ _ _ h0]
      intro p hp
      rcases List.mem_cons.mp hp with hp | hp
      · subst hp
        exact h (k₀, cs₀) (List.mem_cons_self _ _)
      · exact ih htail p hp

/-- Keys after `removeConnection` form a sublist of the original keys. -/
theorem keys_removeConnection_sublist (d : Registry) (k : String) (c : Nat) :
    List.Sublist ((removeConnection d k c).map Prod.fst) (d.map Prod.fst) := by
  induction d with
  | nil => simp [removeConnection]
  | cons p rest ih =>
    obtain ⟨k₀, cs₀⟩ := p
    by_cases h0 : k₀ = k
    · subst h0
      cases hidx : connIndexOf cs₀ c with
      | none => simp [removeConnection, hidx]
      | some i =>
        by_cases hdel : cs₀.length = 1 ∧ i = 0
        · simp only [removeConnection, if_pos rfl, hidx, if_pos hdel]
          exact List.sublist_cons_self _ _
        · simp [removeConnection, hidx, hdel]
    · simp only [removeConnection, if_neg h0, List.map_cons]
      exact List.Sublist.cons₂ _ ih

theorem keysNodup_removeConnection (d : Registry) (k : String) (c : Nat)
    (h : keysNodup d) : keysNodup (removeConnection d k c) :=
  List.Nodup.sublist (keys_removeConnection_sublist d k c) h

theorem noEmpty_removeConnection (d : Registry) (k : String) (c : Nat)
    (h : noEmpty d) : noEmpty (removeConnection d k c) := by
  induction d with
  | nil => intro p hp; simp [removeConnection] at hp
  | cons q rest ih =>
    obtain ⟨k₀, cs₀⟩ := q
    have htail : noEmpty rest := fun q hq => h q (List.mem_cons_of_mem _ hq)
    by_cases h0 : k₀ = k
    · subst h0
      cases hidx : connIndexOf cs₀ c with
      | none => simpa [removeConnection, hidx] using h
      | some i =>
        obtain ⟨hlt, _, _⟩ := connIndexOf_spec cs₀ c i hidx
        by_cases hdel : cs₀.length = 1 ∧ i = 0
        · simpa [removeConnection, hidx, hdel] using htail
        · rw [removeConnection_cons_splice _ _ _ _ _ hidx hdel]
          intro p hp
          rcases List.mem_cons.mp hp with hp | hp
          · subst hp
            have hlen2 : 2 ≤ cs₀.length := by
              by_cases hl1 : cs₀.length = 1
              · exact absurd ⟨hl1, by omega⟩ hdel
              · omega
            have hpos : 0 < (cs₀.eraseIdx i).length := by
              rw [List.length_eraseIdx, if_pos hlt]
              omega
            exact List.ne_nil_of_length_pos hpos
          · exact htail p hp
    · rw [removeConnection_cons_other _ _ _ _ _ h0]
      intro p hp
      rcases List.mem_cons.mp hp with hp | hp
      · subst hp
        exact h (k₀, cs₀) (List.mem_cons_self _ _)
      · exact ih htail p hp

/-- Effect of `addConnection` on per-pair multiplicity. -/
theorem regCount_addConnection (d : Registry) (k k' : String) (c c' : Nat) :
    regCount (addConnection d k c) k' c'
      = regCount d k' c' + (if k' = k ∧ c' = c then 1 else 0) := by
  unfold regCount
  rw [getConns_addConnection]
  by_cases hk : k' = k
  · subst hk
    by_cases hc : c' = c
    · subst hc
      simp [List.count_append]
    · simp [List.count_append, hc, List.count_singleton']
  · simp [hk]

/-- Removing a pair that is present decrements exactly its multiplicity. -/
theorem regCount_removeConnection_self (d : Registry) (k : String) (c : Nat)
    (hnd : keysNodup d) (hpos : 1 ≤ regCount d k c) :
    regCount (removeConnection d k c) k c = regCount d k c - 1 := by
  induction d with
  | nil => simp [regCount, getConns] at hpos
  | cons p rest ih =>
    obtain ⟨k₀, cs₀⟩ := p
    have hnd' : keysNodup rest := by
      simpa [keysNodup] using (List.nodup_cons.mp hnd).2
    have hk₀ : k₀ ∉ rest.map Prod.fst := by
      simpa [keysNodup] using (List.nodup_cons.mp hnd).1
    by_cases h0 : k₀ = k
    · subst h0
      have hcount : regCount ((k₀, cs₀) :: rest) k₀ c = cs₀.count c := by
        simp [regCount, getConns]
      rw [hcount] at hpos ⊢
      have hmem : c ∈ cs₀ := List.count_pos_iff.mp (by omega)
      obtain ⟨i, hidx⟩ := connIndexOf_mem cs₀ c hmem
      obtain ⟨hlt, _, herase⟩ := connIndexOf_spec cs₀ c i hidx
      by_cases hdel : cs₀.length = 1 ∧ i = 0
      · have hcs : cs₀ = [c] := connIndexOf_singleton cs₀ c (hdel.2 ▸ hidx) hdel.1
        subst hcs
        have hnone : getConns rest k₀ = none :=
          getConns_eq_none_of_not_mem rest k₀ hk₀
        simp [removeConnection, hidx, hdel, regCount, hnone]
      · rw [removeConnection_cons_splice _ _ _ _ _ hidx hdel]
        have hrw : regCount ((k₀, cs₀.eraseIdx i) :: rest) k₀ c
            = (cs₀.eraseIdx i).count c := by
          simp [regCount, getConns]
        rw [hrw, herase, List.count_erase_self]
    · have hrec : ∀ rest', regCount ((k₀, cs₀) :: rest') k c
          = regCount rest' k c := by
        intro rest'
        simp [regCount, getConns, h0]
      rw [hrec] at hpos ⊢
      rw [removeConnection_cons_other _ _ _ _ _ h0, hrec, ih hnd' hpos]

/-- Removing one pair leaves every other pair's multiplicity unchanged. -/
theorem regCount_removeConnection_other (d : Registry) (k k' : String)
    (c c' : Nat) (hnd : keysNodup d) (hne : ¬ (k' = k ∧ c' = c)) :
    regCount (removeConnection d k c) k' c' = regCount d k' c' := by
  induction d with
  | nil => simp [removeConnection]
  | cons p rest ih =>
    obtain ⟨k₀, cs₀⟩ := p
    have hnd' : keysNodup rest := by
      simpa [keysNodup] using (List.nodup_cons.mp hnd).2
    have hk₀ : k₀ ∉ rest.map Prod.fst := by
      simpa [keysNodup] using (List.nodup_cons.mp hnd).1
    by_cases h0 : k₀ = k
    · subst h0
      cases hidx : connIndexOf cs₀ c with
      | none => simp [removeConnection, hidx]
      | some i =>
        obtain ⟨hlt, _, herase⟩ := connIndexOf_spec cs₀ c i hidx
        by_cases hdel : cs₀.length = 1 ∧ i = 0
        · have hcs : cs₀ = [c] := connIndexOf_singleton cs₀ c (hdel.2 ▸ hidx) hdel.1
          subst hcs
          rw [removeConnection_cons_del _ _ _ _ _ hidx hdel]
          by_cases h1 : k' = k₀
          · subst h1
            have hcc : ¬ c' = c := fun hc => hne ⟨rfl, hc⟩
            have h2 : getConns rest k' = none :=
              getConns_eq_none_of_not_mem rest k' hk₀
            simp [regCount, getConns, h2, List.count_singleton', hcc]
          · have h1' : ¬ k₀ = k' := fun he => h1 he.symm
            simp [regCount, getConns, h1']
        · rw [removeConnection_cons_splice _ _ _ _ _ hidx hdel]
          by_cases h1 : k' = k₀
          · subst h1
            have hcc : ¬ c' = c := fun hc => hne ⟨rfl, hc⟩
            simp [regCount, getConns, herase, List.count_erase_of_ne hcc]
          · have h1' : ¬ k₀ = k' := fun he => h1 he.symm
            simp [regCount, getConns, h1']
    · rw [removeConnection_cons_other _ _ _ _ _ h0]
      by_cases h1 : k' = k₀
      · subst h1
        simp [regCount, getConns]
      · have h1' : ¬ k₀ = k' := fun he => h1 he.symm
        have hrw : ∀ rest', regCount ((k₀, cs₀) :: rest') k' c'
            = regCount rest' k' c' := by
          intro rest'
          simp [regCount, getConns, h1']
        rw [hrw, hrw, ih hnd']

/-- Master invariant over an event trace: keys stay unique, no key holds an
empty array, and each pair's multiplicity in the registry is the number of
its accepts minus the number of its closes — provided closes never run
ahead of accepts in any prefix. -/
theorem runEvents_invariant (tr : List Event)
    (hpre : ∀ n k c, closeCount (tr.take n) k c ≤ acceptCount (tr.take n) k c) :
    ∀ n, keysNodup (runEvents [] (tr.take n))
       ∧ noEmpty (runEvents [] (tr.take n))
       ∧ ∀ k c, regCount (runEvents [] (tr.take n)) k c
             + closeCount (tr.take n) k c = acceptCount (tr.take n) k c := by
  intro n
  induction n with
  | zero =>
    refine ⟨by simp [runEvents, keysNodup], by intro p hp; simp [runEvents] at hp, ?_⟩
    intro k c
    simp [runEvents, regCount, getConns, acceptCount, closeCount]
  | succ m ih =>
    obtain ⟨hnd, hne, hcnt⟩ := ih
    cases hget : tr[m]? with
    | none =>
      have hsame : tr.take (m + 1) = tr.take m := by
        rw [List.take_succ, hget]
        simp
      rw [hsame]
      exact ⟨hnd, hne, hcnt⟩
    | some e =>
      have hsplit : tr.take (m + 1) = tr.take m ++ [e] := by
        rw [List.take_succ, hget]
        rfl
      have hrun : runEvents [] (tr.take m ++ [e])
          = applyEvent (runEvents [] (tr.take m)) e := by
        simp [runEvents, List.foldl_append]
      rw [hsplit, hrun]
      cases e with
      | accept k c =>
        refine ⟨keysNodup_addConnection _ _ _ hnd, noEmpty_addConnection _ _ _ hne, ?_⟩
        intro k' c'
        rw [show applyEvent (runEvents [] (tr.take m)) (Event.accept k c)
            = addConnection (runEvents [] (tr.take m)) k c from rfl]
        rw [regCount_addConnection, acceptCount_append, closeCount_append]
        have hc := hcnt k' c'
        by_cases hx : k' = k ∧ c' = c
        · obtain ⟨h1, h2⟩ := hx
          subst h1; subst h2
          simp [acceptCount, closeCount]
          omega
        · have hx' : ¬ (k = k' ∧ c = c') := fun hy => hx ⟨hy.1.symm, hy.2.symm⟩
          simp [acceptCount, closeCount, hx, hx']
          omega
      | close k c =>
        have hpos : 1 ≤ regCount (runEvents [] (tr.take m)) k c := by
          have h1 := hpre (m + 1) k c
          rw [hsplit, acceptCount_append, closeCount_append] at h1
          have h2 := hcnt k c
          simp [acceptCount, closeCount] at h1
          omega
        refine ⟨keysNodup_removeConnection _ _ _ hnd,
          noEmpty_removeConnection _ _ _ hne, ?_⟩
        intro k' c'
        rw [show applyEvent (runEvents [] (tr.take m)) (Event.close k c)
            = removeConnection (runEvents [] (tr.take m)) k c from rfl]
        rw [acceptCount_append, closeCount_append]
        have hc := hcnt k' c'
        by_cases hx : k' = k ∧ c' = c
        · obtain ⟨h1, h2⟩ := hx
          subst h1; subst h2
          rw [regCount_removeConnection_self _ _ _ hnd hpos]
          simp [acceptCount, closeCount]
          omega
        · rw [regCount_removeConnection_other _ _ _ _ _ hnd hx]
          have hx' : ¬ (k = k' ∧ c = c') := fun hy => hx ⟨hy.1.symm, hy.2.symm⟩
          simp [acceptCount, closeCount, hx, hx']
          omega

/-- C3: for a balanced trace — closes never outrun accepts in any prefix,
and over the whole trace every accepted pair is closed as often as it was
accepted — the registry is empty after the whole trace is processed. -/
theorem registry_empty_after_all_closed (tr : List Event)
    (hpre : ∀ n k c, closeCount (tr.take n) k c ≤ acceptCount (tr.take n) k c)
    (hbal : ∀ k c, acceptCount tr k c = closeCount tr k c) :
    runEvents [] tr = [] := by
  obtain ⟨hnd, hne, hcnt⟩ := runEvents_invariant tr hpre tr.length
  rw [List.take_length] at hnd hne hcnt
  cases hd : runEvents [] tr with
  | nil => rfl
  | cons p rest =>
    obtain ⟨k, cs⟩ := p
    exfalso
    have hcs : cs ≠ [] := by
      have := hne (k, cs)
      rw [hd] at this
      exact this (List.mem_cons_self _ _)
    obtain ⟨c, hc⟩ := List.exists_mem_of_ne_nil cs hcs
    have hreg : 1 ≤ regCount (runEvents [] tr) k c := by
      unfold regCount
      rw [hd]
      rw [show getConns ((k, cs) :: rest) k = some cs by simp [getConns]]
      simpa using List.count_pos_iff.mpr hc
    have h1 := hcnt k c
    have h2 := hbal k c
    omega

/-- Closed witness for C3: one accept followed by its close empties the
registry. -/
theorem registry_empty_after_all_closed_witness :
    runEvents [] [Event.accept "1.2.3.4:1234" 5, Event.close "1.2.3.4:1234" 5]
      = [] := by
  refine registry_empty_after_all_closed _ ?_ ?_
  · intro n k c
    match n with
    | 0 => simp [closeCount, acceptCount]
    | 1 => simp [List.take, closeCount, acceptCount]
    | n + 2 =>
      rw [show List.take (n + 2)
          [Event.accept "1.2.3.4:1234" 5, Event.close "1.2.3.4:1234" 5]
        = [Event.accept "1.2.3.4:1234" 5, Event.close "1.2.3.4:1234" 5] from
          List.take_of_length_le (by simp)]
      simp [closeCount, acceptCount]
  · intro k c
    simp [closeCount, acceptCount]

/-- Total multiplicity of a handle across the whole registry. -/
def totalCount : Registry → Nat → Nat
  | [], _ => 0
  | (_, conns) :: rest, c => conns.count c + totalCount rest c

/-- Number of accept events carrying a given handle, under any key. -/
def acceptTotal : List Event → Nat → Nat
  | [], _ => 0
  | Event.accept _ c' :: rest, c => (if c' = c then 1 else 0) + acceptTotal rest c
  | Event.close _ _ :: rest, c => acceptTotal rest c

theorem totalCount_addConnection (d : Registry) (k : String) (c c' : Nat) :
    totalCount (addConnection d k c) c'
      = totalCount d c' + (if c = c' then 1 else 0) := by
  induction d with
  | nil => simp [addConnection, totalCount, List.count_singleton']
  | cons p rest ih =>
    obtain ⟨k₀, cs₀⟩ := p
    by_cases h0 : k₀ = k
    · subst h0
      rw [addConnection_cons_hit]
      simp [totalCount, List.count_append, List.count_singleton']
      omega
    · rw [addConnection_cons_other _ _ _ _ _ h0]
      simp [totalCount, ih]
      omega

theorem totalCount_removeConnection_le (d : Registry) (k : String) (c c' : Nat) :
    totalCount (removeConnection d k c) c' ≤ totalCount d c' := by
  induction d with
  | nil => simp [removeConnection]
  | cons p rest ih =>
    obtain ⟨k₀, cs₀⟩ := p
    by_cases h0 : k₀ = k
    · subst h0
      cases hidx : connIndexOf cs₀ c with
      | none => simp [removeConnection, hidx]
      | some i =>
        by_cases hdel : cs₀.length = 1 ∧ i = 0
        · rw [removeConnection_cons_del _ _ _ _ _ hidx hdel]
          simp [totalCount]
        · rw [removeConnection_cons_splice _ _ _ _ _ hidx hdel]
          have hsub : (cs₀.eraseIdx i).count c' ≤ cs₀.count c' :=
            List.Sublist.count_le (List.eraseIdx_sublist cs₀ i) c'
          simp [totalCount]
          omega
    · rw [removeConnection_cons_other _ _ _ _ _ h0]
      simp [totalCount]
      omega

theorem totalCount_runEvents_le (tr : List Event) (c : Nat) :
    ∀ d, totalCount (runEvents d tr) c ≤ totalCount d c + acceptTotal tr c := by
  induction tr with
  | nil => intro d; simp [runEvents, acceptTotal]
  | cons e rest ih =>
    intro d
    cases e with
    | accept k c₀ =>
      have h1 := ih (addConnection d k c₀)
      rw [totalCount_addConnection] at h1
      have h2 : runEvents d (Event.accept k c₀ :: rest)
          = runEvents (addConnection d k c₀) rest := rfl
      rw [h2]
      simp only [acceptTotal]
      omega
    | close k c₀ =>
      have h1 := ih (removeConnection d k c₀)
      have h2 : runEvents d (Event.close k c₀ :: rest)
          = runEvents (removeConnection d k c₀) rest := rfl
      have h3 := totalCount_removeConnection_le d k c₀ c
      rw [h2]
      simp only [acceptTotal]
      omega

/-- The registry wellformedness facts hold after any trace, with no
assumption on the trace at all. -/
theorem wellformed_runEvents (tr : List Event) :
    ∀ d, keysNodup d → noEmpty d →
      keysNodup (runEvents d tr) ∧ noEmpty (runEvents d tr) := by
  induction tr with
  | nil => intro d h1 h2; exact ⟨h1, h2⟩
  | cons e rest ih =>
    intro d h1 h2
    cases e with
    | accept k c =>
      exact ih (addConnection d k c) (keysNodup_addConnection _ _ _ h1)
        (noEmpty_addConnection _ _ _ h2)
    | close k c =>
      exact ih (removeConnection d k c) (keysNodup_removeConnection _ _ _ h1)
        (noEmpty_removeConnection _ _ _ h2)

/-- C9: after any sequence of register/unregister events in which each
handle is accepted at most once, the registry invariant holds: keys are
unique, no key maps to an empty array, and each handle occurs in at most
one key's array, at most once. -/
theorem registry_invariant_preserved (tr : List Event)
    (h : ∀ c, acceptTotal tr c ≤ 1) :
    keysNodup (runEvents [] tr) ∧ noEmpty (runEvents [] tr)
      ∧ ∀ c, totalCount (runEvents [] tr) c ≤ 1 := by
  obtain ⟨h1, h2⟩ := wellformed_runEvents tr []
    (by simp [keysNodup]) (by intro p hp; simp at hp)
  refine ⟨h1, h2, ?_⟩
  intro c
  have := totalCount_runEvents_le tr c []
  simp [totalCount] at this
  exact le_trans this (h c)

/-- Closed witness for C9 at a concrete three-event trace. -/
theorem registry_invariant_preserved_witness :
    keysNodup (runEvents [] [Event.accept "a:1" 1, Event.accept "b:2" 2,
        Event.close "a:1" 1])
    ∧ noEmpty (runEvents [] [Event.accept "a:1" 1, Event.accept "b:2" 2,
        Event.close "a:1" 1])
    ∧ totalCount (runEvents [] [Event.accept "a:1" 1, Event.accept "b:2" 2,
        Event.close "a:1" 1]) 1 ≤ 1
    ∧ totalCount (runEvents [] [Event.accept "a:1" 1, Event.accept "b:2" 2,
        Event.close "a:1" 1]) 2 ≤ 1 := by
  have h := registry_invariant_preserved
    [Event.accept "a:1" 1, Event.accept "b:2" 2, Event.close "a:1" 1]
    (by
      intro c
      simp only [acceptTotal]
      split_ifs <;> omega)
  exact ⟨h.1, h.2.1, h.2.2 1, h.2.2 2⟩

/-! ## The historical single-handle-per-key variant

Embedding of the older `makeDestroyable` in which
`connections : { [key: string]: net.Socket }` held a single handle per key,
the close handler ran `delete connections[key]`, and `destroy()` iterated
`connections[key].destroy()` over the keys. -/

/-- The historical registry: one handle per key. -/
abbrev RegistryOld := List (String × Nat)

/-- Assignment `connections[key] = conn` in the historical variant: overwrite in place
(JS objects keep a property's original insertion position on reassignment)
or append a new key. -/
def setConnectionOld : RegistryOld → String → Nat → RegistryOld
  | [], key, conn => [(key, conn)]
  | (k, c) :: rest, key, conn =>
    if k = key then (k, conn) :: rest
    else (k, c) :: setConnectionOld rest key conn

/-- Statement `delete connections[key]` in the historical variant's close handler. -/
def deleteConnectionOld : RegistryOld → String → RegistryOld
  | [], _ => []
  | (k, c) :: rest, key =>
    if k = key then rest else (k, c) :: deleteConnectionOld rest key

/-- Registry mutation performed by the historical handlers: the close
handler deletes by key alone, ignoring which handle closed. -/
def applyEventOld (d : RegistryOld) : Event → RegistryOld
  | .accept k c => setConnectionOld d k c
  | .close k _ => deleteConnectionOld d k

def runEventsOld (d : RegistryOld) (tr : List Event) : RegistryOld :=
  tr.foldl applyEventOld d

/-- The order in which the historical `destroy()` calls `conn.destroy()`:
one handle per key, keys in insertion order. -/
def destroyOrderOld : RegistryOld → List Nat
  | [] => []
  | (_, c) :: rest => c :: destroyOrderOld rest

/-- Flatten the current registry to its tracked (key, handle) pairs. -/
def toPairs : Registry → List (String × Nat)
  | [] => []
  | (k, conns) :: rest => conns.map (fun c => (k, c)) ++ toPairs rest

/-- View a historical registry as a current one (singleton arrays). -/
def mapSingleton (d : RegistryOld) : Registry :=
  d.map (fun p => (p.1, [p.2]))

/-- The (key, handle) pairs of the accept events of a trace, in order. -/
def acceptPairs : List Event → List (String × Nat)
  | [] => []
  | Event.accept k c :: rest => (k, c) :: acceptPairs rest
  | Event.close _ _ :: rest => acceptPairs rest

/-- The (key, handle) pairs of the close events of a trace, in order. -/
def closePairs : List Event → List (String × Nat)
  | [] => []
  | Event.close k c :: rest => (k, c) :: closePairs rest
  | Event.accept _ _ :: rest => closePairs rest

theorem toPairs_mapSingleton (d : RegistryOld) : toPairs (mapSingleton d) = d := by
  induction d with
  | nil => rfl
  | cons p rest ih =>
    obtain ⟨k, c⟩ := p
    simp [mapSingleton, toPairs] at ih ⊢
    exact ih

theorem destroyOrder_mapSingleton (d : RegistryOld) :
    destroyOrder (mapSingleton d) = destroyOrderOld d := by
  induction d with
  | nil => rfl
  | cons p rest ih =>
    obtain ⟨k, c⟩ := p
    simp [mapSingleton, destroyOrder, destroyOrderOld] at ih ⊢
    exact ih

theorem keys_mapSingleton (d : RegistryOld) :
    (mapSingleton d).map Prod.fst = d.map Prod.fst := by
  simp [mapSingleton]

theorem setConnectionOld_append (old : RegistryOld) (k : String) (c : Nat)
    (h : k ∉ old.map Prod.fst) : setConnectionOld old k c = old ++ [(k, c)] := by
  induction old with
  | nil => rfl
  | cons p rest ih =>
    obtain ⟨k₀, c₀⟩ := p
    simp only [List.map_cons, List.mem_cons, not_or] at h
    rw [setConnectionOld, if_neg (fun he => h.1 he.symm), ih h.2]
    rfl

theorem addConnection_append (d : Registry) (k : String) (c : Nat)
    (h : k ∉ d.map Prod.fst) : addConnection d k c = d ++ [(k, [c])] := by
  induction d with
  | nil => rfl
  | cons p rest ih =>
    obtain ⟨k₀, cs₀⟩ := p
    simp only [List.map_cons, List.mem_cons, not_or] at h
    rw [addConnection_cons_other _ _ _ _ _ (fun he => h.1 he.symm), ih h.2]
    rfl

theorem deleteConnectionOld_subset (old : RegistryOld) (k : String) :
    ∀ p ∈ deleteConnectionOld old k, p ∈ old := by
  induction old with
  | nil => intro p hp; simp [deleteConnectionOld] at hp
  | cons q rest ih =>
    obtain ⟨k₀, c₀⟩ := q
    intro p hp
    by_cases h0 : k₀ = k
    · rw [deleteConnectionOld, if_pos h0] at hp
      exact List.mem_cons_of_mem _ hp
    · rw [deleteConnectionOld, if_neg h0] at hp
      rcases List.mem_cons.mp hp with hp | hp
      · exact hp ▸ List.mem_cons_self _ _
      · exact List.mem_cons_of_mem _ (ih p hp)

/-- With globally unique keys, a key determines its handle. -/
theorem pair_unique_of_keysNodup (A : List (String × Nat))
    (hA : (A.map Prod.fst).Nodup) (k : String) (a b : Nat)
    (ha : (k, a) ∈ A) (hb : (k, b) ∈ A) : a = b := by
  induction A with
  | nil => simp at ha
  | cons p rest ih =>
    rw [List.map_cons, List.nodup_cons] at hA
    rcases List.mem_cons.mp ha with ha1 | ha1 <;>
      rcases List.mem_cons.mp hb with hb1 | hb1
    · rw [← ha1] at hb1
      exact (Prod.mk.injEq _ _ _ _ ▸ hb1).2.symm
    · exfalso
      apply hA.1
      rw [show p.1 = k from congrArg Prod.fst ha1.symm]
      exact List.mem_map.mpr ⟨(k, b), hb1, rfl⟩
    · exfalso
      apply hA.1
      rw [show p.1 = k from congrArg Prod.fst hb1.symm]
      exact List.mem_map.mpr ⟨(k, a), ha1, rfl⟩
    · exact ih hA.2 ha1 hb1

/-- The historical delete-by-key and the current remove-by-key-and-handle
coincide on singleton-array registries whose pairs all come from a
unique-keyed universe `A`. -/
theorem removeConnection_mapSingleton (A : List (String × Nat))
    (hA : (A.map Prod.fst).Nodup) (k : String) (c : Nat) (hkc : (k, c) ∈ A) :
    ∀ old : RegistryOld, (∀ p ∈ old, p ∈ A) →
      removeConnection (mapSingleton old) k c
        = mapSingleton (deleteConnectionOld old k) := by
  intro old
  induction old with
  | nil => intro _; rfl
  | cons p rest ih =>
    intro hsub
    obtain ⟨k₀, c₀⟩ := p
    by_cases h0 : k₀ = k
    · subst h0
      have hc₀ : c₀ = c :=
        pair_unique_of_keysNodup A hA k₀ c₀ c
          (hsub (k₀, c₀) (List.mem_cons_self _ _)) hkc
      subst hc₀
      rw [show mapSingleton ((k₀, c₀) :: rest)
          = (k₀, [c₀]) :: mapSingleton rest from rfl]
      rw [removeConnection_cons_del _ _ _ _ 0 (by simp [connIndexOf]) (by simp)]
      rw [show deleteConnectionOld ((k₀, c₀) :: rest) k₀ = rest from by
        rw [deleteConnectionOld, if_pos rfl]]
    · rw [show mapSingleton ((k₀, c₀) :: rest)
          = (k₀, [c₀]) :: mapSingleton rest from rfl]
      rw [removeConnection_cons_other _ _ _ _ _ h0]
      rw [show deleteConnectionOld ((k₀, c₀) :: rest) k
          = (k₀, c₀) :: deleteConnectionOld rest k from by
        rw [deleteConnectionOld, if_neg h0]]
      rw [show mapSingleton ((k₀, c₀) :: deleteConnectionOld rest k)
          = (k₀, [c₀]) :: mapSingleton (deleteConnectionOld rest k) from rfl]
      rw [ih (fun p hp => hsub p (List.mem_cons_of_mem _ hp))]

/-- Step-by-step correspondence of the two variants: from corresponding
states, every prefix of the remaining trace keeps them corresponding. -/
theorem refinement_invariant (A : List (String × Nat))
    (hA : (A.map Prod.fst).Nodup) :
    ∀ (rest : List Event) (old : RegistryOld),
      ((acceptPairs rest).map Prod.fst).Nodup →
      (∀ p ∈ acceptPairs rest, p ∈ A) →
      (∀ p ∈ closePairs rest, p ∈ A) →
      (∀ p ∈ old, p ∈ A) →
      (∀ p ∈ old, p.1 ∉ (acceptPairs rest).map Prod.fst) →
      ∀ n, runEvents (mapSingleton old) (rest.take n)
          = mapSingleton (runEventsOld old (rest.take n)) := by
  intro rest
  induction rest with
  | nil =>
    intro old _ _ _ _ _ n
    simp [runEvents, runEventsOld]
  | cons e rest' ih =>
    intro old hnodup haccA hcloA holdA holdK n
    cases n with
    | zero => simp [runEvents, runEventsOld]
    | succ m =>
      rw [List.take_succ_cons]
      cases e with
      | accept k c =>
        have hpairs : acceptPairs (Event.accept k c :: rest')
            = (k, c) :: acceptPairs rest' := rfl
        have hkcA : (k, c) ∈ A :=
          haccA (k, c) (by rw [hpairs]; exact List.mem_cons_self _ _)
        have hknot : k ∉ old.map Prod.fst := by
          intro hk
          obtain ⟨p, hp, hpk⟩ := List.mem_map.mp hk
          have hnm := holdK p hp
          rw [hpairs, List.map_cons] at hnm
          exact hnm (hpk ▸ List.mem_cons_self _ _)
        rw [hpairs, List.map_cons, List.nodup_cons] at hnodup
        have hstep : runEvents (mapSingleton old)
            (Event.accept k c :: List.take m rest')
            = runEvents (addConnection (mapSingleton old) k c)
                (List.take m rest') := rfl
        have hstepOld : runEventsOld old (Event.accept k c :: List.take m rest')
            = runEventsOld (setConnectionOld old k c) (List.take m rest') := rfl
        rw [hstep, hstepOld,
          addConnection_append _ _ _ (by rw [keys_mapSingleton]; exact hknot),
          setConnectionOld_append _ _ _ hknot,
          show mapSingleton old ++ [(k, [c])] = mapSingleton (old ++ [(k, c)])
            from by simp [mapSingleton]]
        refine ih (old ++ [(k, c)]) hnodup.2
          (fun p hp => haccA p (by rw [hpairs]; exact List.mem_cons_of_mem _ hp))
          hcloA ?_ ?_ m
        · intro p hp
          rcases List.mem_append.mp hp with hp | hp
          · exact holdA p hp
          · rw [List.mem_singleton.mp hp]
            exact hkcA
        · intro p hp
          rcases List.mem_append.mp hp with hp | hp
          · have hnm := holdK p hp
            rw [hpairs, List.map_cons] at hnm
            exact fun hmem => hnm (List.mem_cons_of_mem _ hmem)
          · rw [List.mem_singleton.mp hp]
            exact hnodup.1
      | close k c =>
        have hpairs : closePairs (Event.close k c :: rest')
            = (k, c) :: closePairs rest' := rfl
        have haccsame : acceptPairs (Event.close k c :: rest')
            = acceptPairs rest' := rfl
        have hkcA : (k, c) ∈ A :=
          hcloA (k, c) (by rw [hpairs]; exact List.mem_cons_self _ _)
        have hstep : runEvents (mapSingleton old)
            (Event.close k c :: List.take m rest')
            = runEvents (removeConnection (mapSingleton old) k c)
                (List.take m rest') := rfl
        have hstepOld : runEventsOld old (Event.close k c :: List.take m rest')
            = runEventsOld (deleteConnectionOld old k) (List.take m rest') := rfl
        rw [hstep, hstepOld,
          removeConnection_mapSingleton A hA k c hkcA old holdA]
        refine ih (deleteConnectionOld old k)
          (by rw [haccsame] at hnodup; exact hnodup)
          (fun p hp => haccA p (by rw [haccsame]; exact hp))
          (fun p hp => hcloA p (by rw [hpairs]; exact List.mem_cons_of_mem _ hp))
          (fun p hp => holdA p (deleteConnectionOld_subset old k p hp))
          ?_ m
        intro p hp
        have hnm := holdK p (deleteConnectionOld_subset old k p hp)
        rw [haccsame] at hnm
        exact hnm

/-- C10: on traces whose accepted connections have pairwise-distinct keys
and whose close events all belong to accepted connections, the historical
single-handle-per-key variant and the current array-per-key variant track
exactly the same (key, handle) pairs after every prefix, and their
`destroy()` operations force-terminate the same handles (even in the same
order, which in particular is the same set). -/
theorem registry_refinement (tr : List Event)
    (h1 : ((acceptPairs tr).map Prod.fst).Nodup)
    (h2 : ∀ p ∈ closePairs tr, p ∈ acceptPairs tr) :
    ∀ n, toPairs (runEvents [] (tr.take n)) = runEventsOld [] (tr.take n)
      ∧ destroyOrder (runEvents [] (tr.take n))
          = destroyOrderOld (runEventsOld [] (tr.take n)) := by
  intro n
  have key := refinement_invariant (acceptPairs tr) h1 tr [] h1
    (fun p hp => hp) h2 (by intro p hp; simp at hp)
    (by intro p hp; simp at hp) n
  rw [show mapSingleton [] = [] from rfl] at key
  constructor
  · rw [key, toPairs_mapSingleton]
  · rw [key, destroyOrder_mapSingleton]

/-- Closed witness for C10 at a concrete four-event trace, observed after
its third event. -/
theorem registry_refinement_witness :
    toPairs (runEvents [] (List.take 3 [Event.accept "a:1" 10,
        Event.accept "b:2" 20, Event.close "a:1" 10, Event.close "b:2" 20]))
      = runEventsOld [] (List.take 3 [Event.accept "a:1" 10,
        Event.accept "b:2" 20, Event.close "a:1" 10, Event.close "b:2" 20])
    ∧ destroyOrder (runEvents [] (List.take 3 [Event.accept "a:1" 10,
        Event.accept "b:2" 20, Event.close "a:1" 10, Event.close "b:2" 20]))
      = destroyOrderOld (runEventsOld [] (List.take 3 [Event.accept "a:1" 10,
        Event.accept "b:2" 20, Event.close "a:1" 10, Event.close "b:2" 20])) :=
  registry_refinement [Event.accept "a:1" 10, Event.accept "b:2" 20,
    Event.close "a:1" 10, Event.close "b:2" 20]
    (by simp [acceptPairs]) (by decide) 3

/-! ## Sockets, closed-state detection, and the timing of `destroy()`

`Socket = net.Socket & { _parent?: Socket }`: a handle carries a
`destroyed` flag, a `closed` flag (Node v20+), and an optional parent
back-reference. The inductive structure makes parent chains finite and
acyclic by construction; `checkDestroyedFuel` below models the raw do/while
loop over an arbitrary parent graph for the termination claim.

`destroy()`'s timing is modelled in abstract scheduling turns:
* each snapshot connection's close promise resolves at turn 0 when
  `conn.closed || checkDestroyed(conn)` holds at destroy time, otherwise at
  the turn its `close` event fires (never, if that event never fires);
* `Promise.all` resolves at the latest of those turns, and the
  `setImmediate` deferral makes the overall promise resolve one turn later;
* `server.close`'s callback fires at `serverCloseTime` and calls
  `reject(err)` when it reports an error; a promise settles only once, so
  the earlier settlement wins. -/

/-- A connection handle: `destroyed` and `closed` flags plus an optional
`_parent` back-reference (base = no parent). -/
inductive Socket where
  | base (destroyed closed : Bool)
  | wrap (destroyed closed : Bool) (parent : Socket)
deriving DecidableEq

/-- The `destroyed` flag of a handle. -/
def Socket.destroyed : Socket → Bool
  | .base d _ => d
  | .wrap d _ _ => d

/-- The `closed` flag of a handle (Node v20+; the `conn.closed` check). -/
def Socket.closed : Socket → Bool
  | .base _ c => c
  | .wrap _ c _ => c

/-- The `_parent` back-reference of a handle. -/
def Socket.parent : Socket → Option Socket
  | .base _ _ => none
  | .wrap _ _ p => some p

/-- Function `checkDestroyed(conn)` from `src/index.ts`: return true on a set
`destroyed` flag, else follow `_parent` and repeat, returning false at a
handle without a parent. -/
def checkDestroyed : Socket → Bool
  | .base d _ => d
  | .wrap d _ p => if d then true else checkDestroyed p

/-- The parent back-reference chain of a handle, starting with itself. -/
def Socket.chain : Socket → List Socket
  | .base d c => [.base d c]
  | .wrap d c p => .wrap d c p :: p.chain

/-- The immediate-resolution condition of `destroy()`'s per-connection
promise: `conn.closed || checkDestroyed(conn)`. -/
def immediateResolve (s : Socket) : Bool :=
  s.closed || checkDestroyed s

/-- The inputs that determine the timing of one `destroy()` call:
the snapshot of tracked connections, when each one's `close` event fires
(`none` = never), and the server-close callback's report and turn. -/
structure DestroyInput where
  conns : List Socket
  closeEvent : Nat → Option Nat
  serverCloseErr : Option Nat
  serverCloseTime : Nat

/-- The turn at which snapshot connection `i`'s close promise resolves:
turn 0 when it is detected closed at destroy time, else its close event's
turn. -/
def connResolveTime (inp : DestroyInput) (i : Nat) : Option Nat :=
  match inp.conns[i]? with
  | none => none
  | some s => if immediateResolve s then some 0 else inp.closeEvent i

/-- Max of two optional turns, `none` (never) absorbing. -/
def optMax : Option Nat → Option Nat → Option Nat
  | some a, some b => some (max a b)
  | _, _ => none

/-- The turn at which `Promise.all(closePromises)` resolves. -/
def allConnsTime (inp : DestroyInput) : Option Nat :=
  (List.range inp.conns.length).foldr
    (fun i acc => optMax (connResolveTime inp i) acc) (some 0)

/-- The turn at which `setImmediate(() => resolve())` runs: one turn after
all close promises resolved. -/
def resolveTime (inp : DestroyInput) : Option Nat :=
  (allConnsTime inp).map (· + 1)

/-- Settled state of the promise returned by `destroy()`. -/
inductive Outcome where
  | resolved (t : Nat)
  | rejected (e : Nat) (t : Nat)
  | pending
deriving DecidableEq

/-- How the promise returned by `destroy()` settles: `reject(err)` fires at
the server-close callback's turn when it reports an error, `resolve()` at
`resolveTime`; the earlier settlement wins (a promise settles once). -/
def destroyOutcome (inp : DestroyInput) : Outcome :=
  match inp.serverCloseErr, resolveTime inp with
  | some e, some ts =>
    if inp.serverCloseTime ≤ ts then .rejected e inp.serverCloseTime
    else .resolved ts
  | some e, none => .rejected e inp.serverCloseTime
  | none, some ts => .resolved ts
  | none, none => .pending

/-- Host-scheduling fact about Node's `net.Server`: `server.close(cb)` only
reports an error (`ERR_SERVER_NOT_RUNNING`) through a `process.nextTick`
delivery, which runs before any `setImmediate` — modelled as turn 0. -/
def HostSchedule (inp : DestroyInput) : Prop :=
  ∀ e, inp.serverCloseErr = some e → inp.serverCloseTime = 0

theorem optMax_foldr_bound (f : Nat → Option Nat) (l : List Nat) (T : Nat)
    (h : l.foldr (fun i acc => optMax (f i) acc) (some 0) = some T) :
    ∀ i ∈ l, ∃ ti, f i = some ti ∧ ti ≤ T := by
  induction l generalizing T with
  | nil => intro i hi; simp at hi
  | cons j l' ih =>
    intro i hi
    rw [List.foldr_cons] at h
    cases hf : f j with
    | none => rw [hf] at h; simp [optMax] at h
    | some a =>
      rw [hf] at h
      cases hrec : l'.foldr (fun i acc => optMax (f i) acc) (some 0) with
      | none => rw [hrec] at h; simp [optMax] at h
      | some b =>
        rw [hrec] at h
        simp only [optMax] at h
        cases h
        rcases List.mem_cons.mp hi with hi | hi
        · exact ⟨a, hi ▸ hf, le_max_left a b⟩
        · obtain ⟨ti, hti, hle⟩ := ih b hrec i hi
          exact ⟨ti, hti, le_trans hle (le_max_right a b)⟩

/-- C1 (amended): when the promise returned by `destroy()` resolves, it
resolves exactly one scheduling turn after the last tracked connection's
close promise resolved, and every tracked connection's close promise had
resolved by then — but nothing relates the resolution to the server-close
callback, which only matters for rejection. -/
theorem destroy_resolution_time (inp : DestroyInput) (t : Nat)
    (h : destroyOutcome inp = .resolved t) :
    ∃ T, allConnsTime inp = some T ∧ t = T + 1
      ∧ ∀ i, i < inp.conns.length →
          ∃ ti, connResolveTime inp i = some ti ∧ ti ≤ T := by
  have hres : resolveTime inp = some t := by
    cases herr : inp.serverCloseErr with
    | none =>
      cases hrt : resolveTime inp with
      | none => simp [destroyOutcome, herr, hrt] at h
      | some ts =>
        simp [destroyOutcome, herr, hrt] at h
        rw [h]
    | some e =>
      cases hrt : resolveTime inp with
      | none => simp [destroyOutcome, herr, hrt] at h
      | some ts =>
        by_cases hle : inp.serverCloseTime ≤ ts
        · simp [destroyOutcome, herr, hrt, hle] at h
        · simp [destroyOutcome, herr, hrt, hle] at h
          rw [h]
  unfold resolveTime at hres
  cases hall : allConnsTime inp with
  | none => rw [hall] at hres; simp at hres
  | some T =>
    rw [hall] at hres
    simp only [Option.map_some'] at hres
    cases hres
    refine ⟨T, rfl, rfl, ?_⟩
    intro i hi
    exact optMax_foldr_bound (connResolveTime inp) (List.range inp.conns.length)
      T hall i (List.mem_range.mpr hi)

/-- Closed witness for `destroy_resolution_time`: one open connection whose
close event fires at turn 4; the promise resolves at turn 5. -/
theorem destroy_resolution_time_witness :
    destroyOutcome
      (DestroyInput.mk [Socket.base false false] (fun _ => some 4) none 9)
      = Outcome.resolved 5
    ∧ ∃ T, allConnsTime
        (DestroyInput.mk [Socket.base false false] (fun _ => some 4) none 9)
        = some T
      ∧ 5 = T + 1
      ∧ ∀ i, i < (DestroyInput.mk [Socket.base false false]
            (fun _ => some 4) none 9).conns.length →
          ∃ ti, connResolveTime
              (DestroyInput.mk [Socket.base false false]
                (fun _ => some 4) none 9) i = some ti ∧ ti ≤ T :=
  ⟨rfl, destroy_resolution_time _ 5 rfl⟩

/-- Counterexample to C1 as stated: with a single already-destroyed
connection, no close event ever firing, no server-close error, and the
server-close callback firing at turn 10, the promise resolves at turn 1 —
strictly before the server-close callback has fired. The claim's "does not
resolve until ... the server-close callback has fired" is false of the
code: `server.close`'s callback never feeds `resolve()`; only
`Promise.all(closePromises)` plus `setImmediate` do. -/
theorem destroy_resolves_before_server_close :
    destroyOutcome
      (DestroyInput.mk [Socket.base true true] (fun _ => none) none 10)
      = Outcome.resolved 1
    ∧ 1 < (DestroyInput.mk [Socket.base true true] (fun _ => none) none 10
        ).serverCloseTime :=
  ⟨rfl, by decide⟩

/-- C4: if the server-close callback reports an error, the promise returned
by `destroy()` rejects with exactly that error — whatever the snapshot
connections and their close events are doing. Uses the host-scheduling fact
that an erroring `server.close` callback is delivered at turn 0, before the
`setImmediate`-deferred `resolve()` (which can run at turn 1 at the
earliest). -/
theorem server_close_error_rejects (inp : DestroyInput) (e : Nat)
    (hs : HostSchedule inp) (he : inp.serverCloseErr = some e) :
    destroyOutcome inp = .rejected e 0 := by
  have ht : inp.serverCloseTime = 0 := hs e he
  cases hrt : resolveTime inp with
  | none => simp [destroyOutcome, he, hrt, ht]
  | some ts => simp [destroyOutcome, he, hrt, ht]

/-- Closed witness for `server_close_error_rejects`: one pre-destroyed
connection, one open connection closing at turn 5, one connection that
never closes; the server-close error 7 still rejects the promise at
turn 0. -/
theorem server_close_error_rejects_witness :
    destroyOutcome
      (DestroyInput.mk
        [Socket.base true true, Socket.base false false, Socket.base false false]
        (fun i => if i = 1 then some 5 else none) (some 7) 0)
      = Outcome.rejected 7 0 :=
  server_close_error_rejects _ 7 (fun _ _ => rfl) rfl

/-- C6: `checkDestroyed` returns true exactly when some handle on the
parent back-reference chain (starting with the handle itself) has its
`destroyed` flag set; consequently a handle that the detection
(`conn.closed || checkDestroyed(conn)`) reports closed at the moment
`destroy()` runs has its close promise resolved immediately (turn 0),
irrespective of whether a close event would ever fire. -/
theorem checkDestroyed_spec :
    (∀ s : Socket, checkDestroyed s = true ↔ ∃ t ∈ s.chain, t.destroyed = true)
    ∧ ∀ (inp : DestroyInput) (i : Nat) (s : Socket),
        inp.conns[i]? = some s → immediateResolve s = true →
        connResolveTime inp i = some 0 := by
  constructor
  · intro s
    induction s with
    | base d c =>
      simp [checkDestroyed, Socket.chain, Socket.destroyed]
    | wrap d c p ih =>
      by_cases hd : d = true
      · subst hd
        simp [checkDestroyed, Socket.chain, Socket.destroyed]
      · have hd' : d = false := by
          cases d
          · rfl
          · exact absurd rfl hd
        subst hd'
        simp [checkDestroyed, Socket.chain, Socket.destroyed, ih]
  · intro inp i s hget himm
    simp [connResolveTime, hget, himm]

/-- Closed witness for `checkDestroyed_spec`: a handle whose own flags are
both clear but whose parent is destroyed resolves at turn 0 even though its
close event never fires. -/
theorem checkDestroyed_spec_witness :
    connResolveTime
      (DestroyInput.mk [Socket.wrap false false (Socket.base true false)]
        (fun _ => none) none 0) 0 = some 0 :=
  checkDestroyed_spec.2
    (DestroyInput.mk [Socket.wrap false false (Socket.base true false)]
      (fun _ => none) none 0)
    0 (Socket.wrap false false (Socket.base true false)) rfl rfl

/-! ### Termination of the raw do/while walk

The loop in `checkDestroyed` as written iterates over an arbitrary parent
graph; the spec asserts it terminates whenever the parent chain is finite
and acyclic. We model handles as nodes of an arbitrary graph with a
`destroyed` predicate and a partial `parent` map, and the loop with
explicit fuel. -/

/-- Follow the parent map `n` steps from `c`; `none` once the chain has
ended. -/
def parentIter (parent : Nat → Option Nat) : Nat → Nat → Option Nat
  | 0, c => some c
  | n + 1, c =>
    match parent c with
    | none => none
    | some p => parentIter parent n p

/-- The do/while loop of `checkDestroyed` with explicit fuel: `none` means
the fuel ran out before the loop returned. -/
def checkDestroyedFuel (destroyed : Nat → Bool) (parent : Nat → Option Nat) :
    Nat → Nat → Option Bool
  | 0, _ => none
  | n + 1, c =>
    if destroyed c then some true
    else
      match parent c with
      | none => some false
      | some p => checkDestroyedFuel destroyed parent n p

/-- C7: on a finite, acyclic parent chain — one whose parent walk reaches
the end within `n` steps — the `checkDestroyed` loop terminates, returning
true or false after finitely many parent steps (fuel `n` suffices). -/
theorem checkDestroyed_terminates (destroyed : Nat → Bool)
    (parent : Nat → Option Nat) (n c : Nat)
    (h : parentIter parent n c = none) :
    (checkDestroyedFuel destroyed parent n c).isSome = true := by
  induction n generalizing c with
  | zero => simp [parentIter] at h
  | succ m ih =>
    rw [parentIter] at h
    cases hp : parent c with
    | none =>
      rw [checkDestroyedFuel]
      by_cases hd : destroyed c = true
      · rw [if_pos hd]; rfl
      · rw [if_neg hd, hp]; rfl
    | some p =>
      rw [hp] at h
      rw [checkDestroyedFuel]
      by_cases hd : destroyed c = true
      · rw [if_pos hd]; rfl
      · rw [if_neg hd, hp]
        exact ih p h

/-- Closed witness for `checkDestroyed_terminates`: a two-node chain
0 → 1 → end with no destroyed flags; the walk returns false within fuel
2. -/
theorem checkDestroyed_terminates_witness :
    (checkDestroyedFuel (fun _ => false)
      (fun c => if c = 0 then some 1 else none) 2 0).isSome = true :=
  checkDestroyed_terminates (fun _ => false)
    (fun c => if c = 0 then some 1 else none) 2 0 (by decide)

end DestroyableServer
